import Mathlib

/-!
Verification of the rational-number value type in
`include/py2cpp/fractions.hpp` (namespace `fun`), instantiated at the
integer representation `Z = Int`.

The C++ template is embedded shallowly: C++ integer division `/` is
truncated division (`Int.tdiv`), `%` is the truncated remainder
(`Int.tmod`), and each member function or operator becomes a pure Lean
function on a `Fraction` record.  The in-place operators (`*=`, `/=`,
`-=`, `+=`) are embedded as functions returning the final value of
`*this`; the `std::swap` field-shuffling of the source is translated by
writing out the corresponding record values.
-/

namespace Frac

/-- C++ `fun::abs` for a signed type: `(a < T(0)) ? -a : a`. -/
def abs (a : Int) : Int := if a < 0 then -a else a

/-- C++ `fun::gcd_recur`: Euclidean recursion
`if (n == 0) return abs(m); return gcd_recur(n, m % n);`
(`%` is C++ truncated remainder, i.e. `Int.tmod`). -/
def gcd_recur (m n : Int) : Int :=
  if n = 0 then abs m
  else gcd_recur n (m.tmod n)
termination_by n.natAbs
decreasing_by
  have habs : (m.tmod n).natAbs = m.natAbs % n.natAbs := by
    cases m <;> cases n <;>
      simp only [Int.tmod, Int.natAbs_neg, Int.natAbs_ofNat, Int.natAbs_negSucc] <;> rfl
  rw [habs]
  exact Nat.mod_lt _ (Int.natAbs_pos.2 (by assumption))

/-- C++ `fun::gcd`: `if (m == 0) return abs(n); return gcd_recur(m, n);`. -/
def gcd (m n : Int) : Int :=
  if m = 0 then abs n else gcd_recur m n

/-- C++ `fun::lcm`: `if (m == 0 || n == 0) return 0; return (abs(m) / gcd(m, n)) * abs(n);`. -/
def lcm (m n : Int) : Int :=
  if m = 0 ∨ n = 0 then 0 else ((abs m).tdiv (gcd m n)) * abs n

/-- Fuel-indexed transcription of the `gcd_recur` recursion: `none` means the
recursion did not reach the `n == 0` base case within the allotted number of
call frames. Used to state termination of the Euclidean recursion. -/
def gcd_recur_fuel : Nat → Int → Int → Option Int
  | 0, _, _ => none
  | fuel + 1, m, n => if n = 0 then some (abs m) else gcd_recur_fuel fuel n (m.tmod n)

/-- The `fun::Fraction<Z>` record at `Z = Int`: numerator `_num` and
denominator `_den`, accessed through `num()` / `den()`. -/
structure Fraction where
  num : Int
  den : Int
deriving DecidableEq

/-- C++ `Fraction::normalize1`: negate both fields when the denominator is
negative. -/
def normalize1 (f : Fraction) : Fraction :=
  if f.den < 0 then ⟨-f.num, -f.den⟩ else f

/-- C++ `Fraction::normalize2`: divide both fields by their gcd unless it is
0 or 1; returns the updated fraction together with the C++ return value
(the computed gcd). -/
def normalize2 (f : Fraction) : Fraction × Int :=
  let common := gcd f.num f.den
  if common = 1 ∨ common = 0 then (f, common)
  else (⟨f.num.tdiv common, f.den.tdiv common⟩, common)

/-- C++ `Fraction::normalize`: `normalize1` then `normalize2`. -/
def normalize (f : Fraction) : Fraction :=
  (normalize2 (normalize1 f)).1

/-- The two-argument constructor `Fraction(num, den)`: store then `normalize`. -/
def mkFraction (num den : Int) : Fraction :=
  normalize ⟨num, den⟩

/-- C++ `Fraction::cross`: `num * rhs.den - den * rhs.num`. -/
def cross (lhs rhs : Fraction) : Int :=
  lhs.num * rhs.den - lhs.den * rhs.num

/-- C++ `operator==(const Fraction &lhs, const Z &rhs)`, transcribed exactly:
fast path compares numerators; the slow path swaps `lhs2._den` with `rhs2`,
reduces `lhs2` by `normalize2`, and then returns
`lhs2._num < lhs2._den * rhs2` (the comparison the source actually performs). -/
def eqInt (lhs : Fraction) (rhs : Int) : Bool :=
  if lhs.den = 1 ∨ rhs = 0 then decide (lhs.num = rhs)
  else
    let lhs2 := (normalize2 ⟨lhs.num, rhs⟩).1
    let rhs2 := lhs.den
    decide (lhs2.num < lhs2.den * rhs2)

/-- C++ `operator==(const Fraction &, const Fraction &)`: fast path on equal
denominators, otherwise swap `lhs2._den` with `rhs2._num`, reduce both pairs
by `normalize2`, and compare the cross products. -/
def eqFrac (lhs rhs : Fraction) : Bool :=
  if lhs.den = rhs.den then decide (lhs.num = rhs.num)
  else
    let lhs2 := (normalize2 ⟨lhs.num, rhs.num⟩).1
    let rhs2 := (normalize2 ⟨lhs.den, rhs.den⟩).1
    decide (lhs2.num * rhs2.den = lhs2.den * rhs2.num)

/-- C++ `operator<(const Fraction &, const Fraction &)`: same reduction as
equality with `<` instead of `==`. -/
def ltFrac (lhs rhs : Fraction) : Bool :=
  if lhs.den = rhs.den then decide (lhs.num < rhs.num)
  else
    let lhs2 := (normalize2 ⟨lhs.num, rhs.num⟩).1
    let rhs2 := (normalize2 ⟨lhs.den, rhs.den⟩).1
    decide (lhs2.num * rhs2.den < lhs2.den * rhs2.num)

/-- C++ `Fraction::reciprocal`: swap the fields and re-apply `normalize1`. -/
def reciprocal (f : Fraction) : Fraction :=
  normalize1 ⟨f.den, f.num⟩

/-- C++ `operator*=(Fraction rhs)`: swap numerators, `normalize2` both,
then multiply fields componentwise. -/
def mulAssign (self rhs : Fraction) : Fraction :=
  let self1 := (normalize2 ⟨rhs.num, self.den⟩).1
  let rhs1 := (normalize2 ⟨self.num, rhs.den⟩).1
  ⟨self1.num * rhs1.num, self1.den * rhs1.den⟩

/-- C++ `operator*(Fraction lhs, const Fraction &rhs)`: delegates to `*=`. -/
def mul (lhs rhs : Fraction) : Fraction :=
  mulAssign lhs rhs

/-- C++ `operator/=(Fraction rhs)`: swap `this->_den` with `rhs._num`,
fully `normalize` `*this`, `normalize2` `rhs`, then multiply fields. -/
def divAssign (self rhs : Fraction) : Fraction :=
  let self1 := normalize ⟨self.num, rhs.num⟩
  let rhs1 := (normalize2 ⟨self.den, rhs.den⟩).1
  ⟨self1.num * rhs1.den, self1.den * rhs1.num⟩

/-- C++ `operator/(Fraction lhs, const Fraction &rhs)`: delegates to `/=`. -/
def div (lhs rhs : Fraction) : Fraction :=
  divAssign lhs rhs

/-- C++ unary `operator-`: copy and negate the numerator only. -/
def neg (f : Fraction) : Fraction :=
  ⟨-f.num, f.den⟩

/-- C++ `operator+(const Fraction &rhs) const`: fast path on equal
denominators, sentinel path when `gcd` of the denominators is 0, otherwise
the reduced-common-denominator sum; every branch returns through the
normalizing constructor. -/
def add (self rhs : Fraction) : Fraction :=
  if self.den = rhs.den then mkFraction (self.num + rhs.num) self.den
  else
    let common := gcd self.den rhs.den
    if common = 0 then mkFraction (rhs.den * self.num + self.den * rhs.num) 0
    else
      let l := self.den.tdiv common
      let r := rhs.den.tdiv common
      mkFraction (r * self.num + l * rhs.num) (self.den * r)

/-- C++ `operator-(const Fraction &frac) const`: `*this + (-frac)`. -/
def sub (self rhs : Fraction) : Fraction :=
  add self (neg rhs)

/-- C++ `operator-=(const Fraction &rhs)`: the swap-trick in-place
subtraction. Fast path subtracts numerators and re-runs `normalize2`; the
general path reduces the numerator pair and the denominator pair by their
gcds, forms the cross product, and restores the two gcd factors before the
final `normalize2` passes. -/
def subAssign (self rhs : Fraction) : Fraction :=
  if self.den = rhs.den then (normalize2 ⟨self.num - rhs.num, self.den⟩).1
  else
    let p1 := normalize2 ⟨self.num, rhs.num⟩
    let p2 := normalize2 ⟨self.den, rhs.den⟩
    let self1 : Fraction := ⟨p1.1.num, p2.1.num⟩
    let other : Fraction := ⟨p1.1.den, p2.1.den⟩
    let crossv := cross self1 other
    let common_d := self1.den * other.den
    let p3 := normalize2 ⟨crossv, p2.2⟩
    (normalize2 ⟨p3.1.num * p1.2, p3.1.den * common_d⟩).1

/-- C++ `operator+=(const Fraction &rhs)`: `*this -= (-rhs)`. -/
def addAssign (self rhs : Fraction) : Fraction :=
  subAssign self (neg rhs)

/-- Division with an explicit zero-divisor check, `none` meaning the original
code would have divided by zero. -/
def tdivChecked (a b : Int) : Option Int :=
  if b = 0 then none else some (a.tdiv b)

/-- The `normalize2` routine with every integer division checked. -/
def normalize2Checked (f : Fraction) : Option (Fraction × Int) :=
  let common := gcd f.num f.den
  if common = 1 ∨ common = 0 then some (f, common)
  else do
    let n ← tdivChecked f.num common
    let d ← tdivChecked f.den common
    pure (⟨n, d⟩, common)

/-- The `normalize` routine with every integer division checked. -/
def normalizeChecked (f : Fraction) : Option Fraction := do
  let p ← normalize2Checked (normalize1 f)
  pure p.1

/-- C++ `operator/=` with every integer division checked: `none` would mean a
division by zero is executed inside the operation. -/
def divAssignChecked (self rhs : Fraction) : Option Fraction := do
  let self1 ← normalizeChecked ⟨self.num, rhs.num⟩
  let p ← normalize2Checked ⟨self.den, rhs.den⟩
  pure ⟨self1.num * p.1.den, self1.den * p.1.num⟩

/-- Canonical-form invariant of the spec: nonnegative denominator and
numerator/denominator gcd 0 or 1. -/
def CanonInv (f : Fraction) : Prop :=
  0 ≤ f.den ∧ (Int.gcd f.num f.den = 0 ∨ Int.gcd f.num f.den = 1)

/-- The canonical form reached by constructing from a nonzero denominator:
positive denominator and coprime fields. -/
def IsCanonical (f : Fraction) : Prop :=
  0 < f.den ∧ Int.gcd f.num f.den = 1

theorem abs_eq_natAbs (a : Int) : abs a = (a.natAbs : Int) := by
  unfold abs
  rcases Int.natAbs_eq a with h | h
  · rw [if_neg] <;> omega
  · by_cases h0 : a = 0
    · simp [h0]
    · rw [if_pos] <;> omega

theorem natAbs_tmod (a b : Int) : (a.tmod b).natAbs = a.natAbs % b.natAbs := by
  cases a <;> cases b <;>
    simp only [Int.tmod, Int.natAbs_neg, Int.natAbs_ofNat, Int.natAbs_negSucc] <;> rfl

theorem natAbs_tmod_lt (m n : Int) (h : n ≠ 0) : (m.tmod n).natAbs < n.natAbs := by
  rw [natAbs_tmod]
  exact Nat.mod_lt _ (Int.natAbs_pos.2 h)

theorem gcd_tmod_step (m n : Int) : Int.gcd n (m.tmod n) = Int.gcd m n := by
  have hd : m.tmod n = m - n * m.tdiv n := Int.tmod_def m n
  apply Nat.dvd_antisymm
  · have h1 : (↑(Int.gcd n (m.tmod n)) : Int) ∣ n := Int.gcd_dvd_left
    have h2 : (↑(Int.gcd n (m.tmod n)) : Int) ∣ m.tmod n := Int.gcd_dvd_right
    have h3 : (↑(Int.gcd n (m.tmod n)) : Int) ∣ m := by
      have h4 : (↑(Int.gcd n (m.tmod n)) : Int) ∣ n * m.tdiv n := h1.mul_right _
      have h5 := Int.dvd_add h2 h4
      have h6 : m.tmod n + n * m.tdiv n = m := by rw [hd]; ring
      rwa [h6] at h5
    exact Int.ofNat_dvd.mp (Int.dvd_gcd h3 h1)
  · have h1 : (↑(Int.gcd m n) : Int) ∣ m := Int.gcd_dvd_left
    have h2 : (↑(Int.gcd m n) : Int) ∣ n := Int.gcd_dvd_right
    have h3 : (↑(Int.gcd m n) : Int) ∣ m.tmod n := by
      rw [hd]
      exact Int.dvd_sub h1 (h2.mul_right _)
    exact Int.ofNat_dvd.mp (Int.dvd_gcd h2 h3)

theorem gcd_recur_eq_gcd (m n : Int) : gcd_recur m n = (Int.gcd m n : Int) := by
  induction m, n using gcd_recur.induct with
  | case1 m =>
    rw [gcd_recur, if_pos rfl, abs_eq_natAbs, Int.gcd_zero_right]
  | case2 m n h ih =>
    rw [gcd_recur, if_neg h, ih, gcd_tmod_step]

theorem gcd_eq_gcd (m n : Int) : gcd m n = (Int.gcd m n : Int) := by
  unfold gcd
  by_cases h : m = 0
  · simp [h, abs_eq_natAbs, Int.gcd_zero_left]
  · rw [if_neg h, gcd_recur_eq_gcd]

theorem normalize2_eq (f : Fraction) :
    normalize2 f =
      (if Int.gcd f.num f.den = 0 then f
        else ⟨f.num / (Int.gcd f.num f.den : Int), f.den / (Int.gcd f.num f.den : Int)⟩,
       (Int.gcd f.num f.den : Int)) := by
  unfold normalize2
  rw [gcd_eq_gcd]
  by_cases h0 : Int.gcd f.num f.den = 0
  · simp [h0]
  · by_cases h1 : Int.gcd f.num f.den = 1
    · simp [h1]
    · have hc : ¬((Int.gcd f.num f.den : Int) = 1 ∨ (Int.gcd f.num f.den : Int) = 0) := by
        push_neg
        constructor <;> (intro hh; exact absurd (Nat.cast_injective hh) (by simpa))
      rw [if_neg hc, if_neg h0]
      have hl : f.num.tdiv (Int.gcd f.num f.den : Int) = f.num / (Int.gcd f.num f.den : Int) :=
        Int.tdiv_eq_ediv_of_dvd Int.gcd_dvd_left
      have hr : f.den.tdiv (Int.gcd f.num f.den : Int) = f.den / (Int.gcd f.num f.den : Int) :=
        Int.tdiv_eq_ediv_of_dvd Int.gcd_dvd_right
      rw [hl, hr]

theorem normalize2_fst_mul (k x y : Int) (hk : 0 < k) :
    (normalize2 ⟨k * x, k * y⟩).1 = (normalize2 ⟨x, y⟩).1 := by
  rw [normalize2_eq, normalize2_eq]
  have hg : Int.gcd (k * x) (k * y) = k.natAbs * Int.gcd x y := Int.gcd_mul_left k x y
  by_cases h0 : Int.gcd x y = 0
  · obtain ⟨hx, hy⟩ := Int.gcd_eq_zero_iff.mp h0
    simp [hx, hy]
  · have hkn : k.natAbs ≠ 0 := Int.natAbs_ne_zero.mpr hk.ne'
    have h0' : Int.gcd (k * x) (k * y) ≠ 0 := by
      rw [hg]; exact Nat.mul_ne_zero hkn h0
    simp only [if_neg h0', if_neg h0]
    have hk' : (k.natAbs : Int) = k := Int.natAbs_of_nonneg hk.le
    simp only [hg, Nat.cast_mul, hk']
    congr 1 <;> exact Int.mul_ediv_mul_of_pos _ _ hk

theorem normalize1_den (f : Fraction) : (normalize1 f).den = (f.den.natAbs : Int) := by
  unfold normalize1
  split
  · show -f.den = ((f.den.natAbs : Int)); omega
  · show f.den = ((f.den.natAbs : Int)); omega

theorem normalize1_num_natAbs (f : Fraction) : (normalize1 f).num.natAbs = f.num.natAbs := by
  unfold normalize1
  split <;> simp

theorem normalize1_gcd (f : Fraction) :
    Int.gcd (normalize1 f).num (normalize1 f).den = Int.gcd f.num f.den := by
  unfold normalize1
  split <;> simp

theorem normalize1_of_nonneg {f : Fraction} (h : 0 ≤ f.den) : normalize1 f = f := by
  unfold normalize1
  rw [if_neg (by omega)]

theorem gcd_cast_pos {x y : Int} (h : Int.gcd x y ≠ 0) : (0 : Int) < (Int.gcd x y : Int) :=
  Int.natCast_pos.mpr (Nat.pos_of_ne_zero h)

theorem gcd_ne_zero_of_right {x y : Int} (h : y ≠ 0) : Int.gcd x y ≠ 0 := by
  intro h0
  exact h (Int.gcd_eq_zero_iff.mp h0).2

theorem gcd_ne_zero_of_left {x y : Int} (h : x ≠ 0) : Int.gcd x y ≠ 0 := by
  intro h0
  exact h (Int.gcd_eq_zero_iff.mp h0).1

theorem ediv_gcd_pos_right (x d : Int) (hd : 0 < d) : 0 < d / (Int.gcd x d : Int) :=
  Int.ediv_pos_of_pos_of_dvd hd (gcd_cast_pos (gcd_ne_zero_of_right hd.ne')).le Int.gcd_dvd_right

theorem ediv_gcd_pos_left (d y : Int) (hd : 0 < d) : 0 < d / (Int.gcd d y : Int) :=
  Int.ediv_pos_of_pos_of_dvd hd (gcd_cast_pos (gcd_ne_zero_of_left hd.ne')).le Int.gcd_dvd_left

theorem natAbs_ediv_of_dvd (a b : Int) (h : b ∣ a) : (a / b).natAbs = a.natAbs / b.natAbs := by
  rw [← Int.tdiv_eq_ediv_of_dvd h, Int.natAbs_tdiv]
  rfl

theorem mkFraction_eq (n d : Int) :
    mkFraction n d =
      if Int.gcd n d = 0 then normalize1 ⟨n, d⟩
      else ⟨(normalize1 ⟨n, d⟩).num / (Int.gcd n d : Int),
            (normalize1 ⟨n, d⟩).den / (Int.gcd n d : Int)⟩ := by
  unfold mkFraction normalize
  rw [normalize2_eq]
  have hg : Int.gcd (normalize1 ⟨n, d⟩).num (normalize1 ⟨n, d⟩).den = Int.gcd n d :=
    normalize1_gcd ⟨n, d⟩
  simp only [hg]

theorem mkFraction_den_nonneg (n d : Int) : 0 ≤ (mkFraction n d).den := by
  rw [mkFraction_eq]
  have h1 : (0 : Int) ≤ (normalize1 ⟨n, d⟩).den := by rw [normalize1_den]; positivity
  split
  · exact h1
  · exact Int.ediv_nonneg h1 (Int.natCast_nonneg _)

theorem mkFraction_gcd (n d : Int) :
    Int.gcd (mkFraction n d).num (mkFraction n d).den = if Int.gcd n d = 0 then 0 else 1 := by
  rw [mkFraction_eq]
  by_cases h0 : Int.gcd n d = 0
  · rw [if_pos h0, if_pos h0, normalize1_gcd, h0]
  · rw [if_neg h0, if_neg h0]
    have hg : Int.gcd (normalize1 ⟨n, d⟩).num (normalize1 ⟨n, d⟩).den = Int.gcd n d :=
      normalize1_gcd ⟨n, d⟩
    have hpos : 0 < Int.gcd (normalize1 ⟨n, d⟩).num (normalize1 ⟨n, d⟩).den := by
      rw [hg]; exact Nat.pos_of_ne_zero h0
    have := Int.gcd_div_gcd_div_gcd hpos
    simpa [hg] using this

theorem mkFraction_canonInv (n d : Int) : CanonInv (mkFraction n d) := by
  refine ⟨mkFraction_den_nonneg n d, ?_⟩
  rw [mkFraction_gcd]
  split
  · exact Or.inl rfl
  · exact Or.inr rfl

theorem mkFraction_den_pos (n : Int) {d : Int} (hd : d ≠ 0) : 0 < (mkFraction n d).den := by
  rw [mkFraction_eq]
  have h0 : Int.gcd n d ≠ 0 := gcd_ne_zero_of_right hd
  rw [if_neg h0]
  have h1 : (0 : Int) < (normalize1 ⟨n, d⟩).den := by
    rw [normalize1_den]
    have : d.natAbs ≠ 0 := Int.natAbs_ne_zero.mpr hd
    positivity
  have hdvd : ((Int.gcd n d : Int)) ∣ (normalize1 ⟨n, d⟩).den := by
    rw [← normalize1_gcd ⟨n, d⟩]
    exact Int.gcd_dvd_right
  exact Int.ediv_pos_of_pos_of_dvd h1 (Int.natCast_nonneg _) hdvd

theorem mkFraction_isCanonical (n : Int) {d : Int} (hd : d ≠ 0) : IsCanonical (mkFraction n d) := by
  refine ⟨mkFraction_den_pos n hd, ?_⟩
  rw [mkFraction_gcd, if_neg (gcd_ne_zero_of_right hd)]

theorem mkFraction_num_natAbs (n d : Int) (h : Int.gcd n d ≠ 0) :
    (mkFraction n d).num.natAbs = n.natAbs / Int.gcd n d := by
  rw [mkFraction_eq, if_neg h]
  have hdvd : ((Int.gcd n d : Int)) ∣ (normalize1 ⟨n, d⟩).num := by
    rw [← normalize1_gcd ⟨n, d⟩]
    exact Int.gcd_dvd_left
  show ((normalize1 ⟨n, d⟩).num / (Int.gcd n d : Int)).natAbs = _
  rw [natAbs_ediv_of_dvd _ _ hdvd, normalize1_num_natAbs, Int.natAbs_ofNat]

theorem mkFraction_den_natAbs (n d : Int) (h : Int.gcd n d ≠ 0) :
    (mkFraction n d).den.natAbs = d.natAbs / Int.gcd n d := by
  rw [mkFraction_eq, if_neg h]
  have hdvd : ((Int.gcd n d : Int)) ∣ (normalize1 ⟨n, d⟩).den := by
    rw [← normalize1_gcd ⟨n, d⟩]
    exact Int.gcd_dvd_right
  show ((normalize1 ⟨n, d⟩).den / (Int.gcd n d : Int)).natAbs = _
  rw [natAbs_ediv_of_dvd _ _ hdvd, normalize1_den]
  simp [Int.natAbs_abs]

theorem gcd_recur_fuel_sound (f : Nat) :
    ∀ m n : Int, n.natAbs < f → gcd_recur_fuel f m n = some (gcd_recur m n) := by
  induction f with
  | zero => exact fun m n h => absurd h (Nat.not_lt_zero _)
  | succ f ih =>
    intro m n h
    by_cases hn : n = 0
    · subst hn
      rw [show gcd_recur m 0 = abs m from by rw [gcd_recur]; simp]
      simp [gcd_recur_fuel]
    · calc gcd_recur_fuel (f + 1) m n
          = gcd_recur_fuel f n (m.tmod n) := by rw [gcd_recur_fuel, if_neg hn]
        _ = some (gcd_recur n (m.tmod n)) :=
            ih n (m.tmod n) (lt_of_lt_of_le (natAbs_tmod_lt m n hn) (by omega))
        _ = some (gcd_recur m n) := by
            rw [show gcd_recur m n = gcd_recur n (m.tmod n) from by rw [gcd_recur, if_neg hn]]

theorem mkFraction_zero_num (n : Int) : (mkFraction 0 n).num = 0 := by
  rw [mkFraction_eq]
  have h1 : (normalize1 ⟨0, n⟩).num = 0 := by
    unfold normalize1; split <;> simp
  split
  · exact h1
  · show ((normalize1 ⟨0, n⟩).num / (Int.gcd 0 n : Int)) = 0
    rw [h1, Int.zero_ediv]

theorem normalize_den_zero (x : Int) : (normalize ⟨x, 0⟩).den = 0 := by
  unfold normalize
  rw [normalize1_of_nonneg (by simp), normalize2_eq]
  split
  · rfl
  · show ((0 : Int) / _) = 0
    rw [Int.zero_ediv]

theorem normalize2Checked_eq (f : Fraction) : normalize2Checked f = some (normalize2 f) := by
  unfold normalize2Checked normalize2 tdivChecked
  by_cases h : gcd f.num f.den = 1 ∨ gcd f.num f.den = 0
  · simp [h]
  · have h0 : gcd f.num f.den ≠ 0 := fun hh => h (Or.inr hh)
    simp only [h, h0, if_false, if_neg h]
    simp [h0]
    split <;> rfl

theorem normalizeChecked_eq (f : Fraction) : normalizeChecked f = some (normalize f) := by
  unfold normalizeChecked normalize
  rw [normalize2Checked_eq]
  rfl

theorem divAssignChecked_eq (a b : Fraction) :
    divAssignChecked a b = some (divAssign a b) := by
  unfold divAssignChecked divAssign
  rw [normalizeChecked_eq, normalize2Checked_eq]
  rfl

/-- C8: `gcd(m, n)` is the non-negative greatest common divisor of `m` and
`n`: it is nonnegative, divides both arguments, is divisible by every common
divisor, and satisfies `gcd(0, n) = abs(n)` and `gcd(0, 0) = 0`. -/
theorem C8_gcd_correct (m n : Int) :
    0 ≤ gcd m n ∧ gcd m n ∣ m ∧ gcd m n ∣ n ∧
      (∀ k : Int, k ∣ m → k ∣ n → k ∣ gcd m n) ∧
      gcd 0 n = abs n ∧ gcd 0 0 = 0 := by
  refine ⟨?_, ?_, ?_, ?_, ?_, ?_⟩
  · rw [gcd_eq_gcd]; exact Int.natCast_nonneg _
  · rw [gcd_eq_gcd]; exact Int.gcd_dvd_left
  · rw [gcd_eq_gcd]; exact Int.gcd_dvd_right
  · intro k hm hn
    rw [gcd_eq_gcd]
    exact Int.dvd_gcd hm hn
  · rw [gcd_eq_gcd, Int.gcd_zero_left, abs_eq_natAbs]
  · rw [gcd_eq_gcd]
    simp

/-- C8 witness: the greatest-divisor clause applied at `m = 12`, `n = 18`,
`k = 3`. -/
theorem C8_gcd_correct_witness : (3 : Int) ∣ gcd 12 18 :=
  (C8_gcd_correct 12 18).2.2.2.1 3 (by decide) (by decide)

/-- C9: the Euclidean recursion `gcd_recur(m, n)` reaches its `n == 0` base
case within `natAbs n + 1` call frames for every integer input: the
fuel-indexed transcription of the recursion already succeeds with that much
fuel, and returns the value of the total function obtained by well-founded
recursion on `natAbs n`. -/
theorem C9_gcd_recur_terminates (m n : Int) :
    gcd_recur_fuel (n.natAbs + 1) m n = some (gcd_recur m n) :=
  gcd_recur_fuel_sound (n.natAbs + 1) m n (by omega)

/-- C10: `reciprocal` on a fraction with numerator 0 swaps the fields and
only re-applies the sign pass `normalize1`, producing numerator = old
denominator and denominator 0, with no gcd reduction and no failure. -/
theorem C10_reciprocal_of_zero (d : Int) : reciprocal ⟨0, d⟩ = ⟨d, 0⟩ := by
  unfold reciprocal normalize1
  simp

theorem eqFrac_iff {a b : Fraction} (ha : 0 < a.den) (hb : 0 < b.den) :
    eqFrac a b = true ↔ a.num * b.den = b.num * a.den := by
  unfold eqFrac
  by_cases hden : a.den = b.den
  · simp only [if_pos hden, decide_eq_true_eq]
    rw [hden]
    exact (mul_left_inj' hb.ne').symm
  · simp only [if_neg hden, normalize2_eq, decide_eq_true_eq]
    have hgd0 : Int.gcd a.den b.den ≠ 0 := gcd_ne_zero_of_left ha.ne'
    rw [if_neg hgd0]
    by_cases hgn0 : Int.gcd a.num b.num = 0
    · obtain ⟨h1, h2⟩ := Int.gcd_eq_zero_iff.mp hgn0
      rw [if_pos hgn0]
      simp [h1, h2]
    · rw [if_neg hgn0]
      set G1 : Nat := Int.gcd a.num b.num with hG1
      set G2 : Nat := Int.gcd a.den b.den with hG2
      have hgnZ : (G1 : Int) ≠ 0 := (gcd_cast_pos hgn0).ne'
      have hgdZ : (G2 : Int) ≠ 0 := (gcd_cast_pos hgd0).ne'
      obtain ⟨A, hA⟩ : (G1 : Int) ∣ a.num := by rw [hG1]; exact Int.gcd_dvd_left
      obtain ⟨B, hB⟩ : (G1 : Int) ∣ b.num := by rw [hG1]; exact Int.gcd_dvd_right
      obtain ⟨P, hP⟩ : (G2 : Int) ∣ a.den := by rw [hG2]; exact Int.gcd_dvd_left
      obtain ⟨Q, hQ⟩ : (G2 : Int) ∣ b.den := by rw [hG2]; exact Int.gcd_dvd_right
      rw [hA, hB, hP, hQ, Int.mul_ediv_cancel_left _ hgnZ, Int.mul_ediv_cancel_left _ hgnZ,
        Int.mul_ediv_cancel_left _ hgdZ, Int.mul_ediv_cancel_left _ hgdZ]
      constructor
      · intro h
        linear_combination ((G1 : Int) * (G2 : Int)) * h
      · intro h
        have h2 : ((G1 : Int) * (G2 : Int)) * (A * Q) = ((G1 : Int) * (G2 : Int)) * (B * P) := by
          linear_combination h
        exact mul_left_cancel₀ (mul_ne_zero hgnZ hgdZ) h2

theorem ltFrac_iff {a b : Fraction} (ha : 0 < a.den) (hb : 0 < b.den) :
    ltFrac a b = true ↔ a.num * b.den < b.num * a.den := by
  unfold ltFrac
  by_cases hden : a.den = b.den
  · simp only [if_pos hden, decide_eq_true_eq]
    rw [hden]
    exact (mul_lt_mul_right hb).symm
  · simp only [if_neg hden, normalize2_eq, decide_eq_true_eq]
    have hgd0 : Int.gcd a.den b.den ≠ 0 := gcd_ne_zero_of_left ha.ne'
    rw [if_neg hgd0]
    by_cases hgn0 : Int.gcd a.num b.num = 0
    · obtain ⟨h1, h2⟩ := Int.gcd_eq_zero_iff.mp hgn0
      rw [if_pos hgn0]
      simp [h1, h2]
    · rw [if_neg hgn0]
      set G1 : Nat := Int.gcd a.num b.num with hG1
      set G2 : Nat := Int.gcd a.den b.den with hG2
      have hgnP : (0 : Int) < (G1 : Int) := gcd_cast_pos hgn0
      have hgdP : (0 : Int) < (G2 : Int) := gcd_cast_pos hgd0
      obtain ⟨A, hA⟩ : (G1 : Int) ∣ a.num := by rw [hG1]; exact Int.gcd_dvd_left
      obtain ⟨B, hB⟩ : (G1 : Int) ∣ b.num := by rw [hG1]; exact Int.gcd_dvd_right
      obtain ⟨P, hP⟩ : (G2 : Int) ∣ a.den := by rw [hG2]; exact Int.gcd_dvd_left
      obtain ⟨Q, hQ⟩ : (G2 : Int) ∣ b.den := by rw [hG2]; exact Int.gcd_dvd_right
      rw [hA, hB, hP, hQ, Int.mul_ediv_cancel_left _ hgnP.ne', Int.mul_ediv_cancel_left _ hgnP.ne',
        Int.mul_ediv_cancel_left _ hgdP.ne', Int.mul_ediv_cancel_left _ hgdP.ne']
      constructor
      · intro h
        have h2 := (mul_lt_mul_left (mul_pos hgnP hgdP)).mpr h
        calc (G1 : Int) * A * ((G2 : Int) * Q)
            = (G1 : Int) * (G2 : Int) * (A * Q) := by ring
          _ < (G1 : Int) * (G2 : Int) * (B * P) := h2
          _ = (G1 : Int) * B * ((G2 : Int) * P) := by ring
      · intro h
        have h2 : (G1 : Int) * (G2 : Int) * (A * Q) < (G1 : Int) * (G2 : Int) * (B * P) := by
          calc (G1 : Int) * (G2 : Int) * (A * Q)
              = (G1 : Int) * A * ((G2 : Int) * Q) := by ring
            _ < (G1 : Int) * B * ((G2 : Int) * P) := h
            _ = (G1 : Int) * (G2 : Int) * (B * P) := by ring
        exact (mul_lt_mul_left (mul_pos hgnP hgdP)).mp h2

/-- C6: on canonical fractions (positive denominator, coprime fields) the
source comparison operators form a trichotomy: exactly one of `a < b`,
`a == b`, `b < a` holds. -/
theorem C6_ordering_trichotomy (a b : Fraction)
    (ha : IsCanonical a) (hb : IsCanonical b) :
    (ltFrac a b = true ∧ eqFrac a b ≠ true ∧ ltFrac b a ≠ true) ∨
      (ltFrac a b ≠ true ∧ eqFrac a b = true ∧ ltFrac b a ≠ true) ∨
      (ltFrac a b ≠ true ∧ eqFrac a b ≠ true ∧ ltFrac b a = true) := by
  have h1 := ltFrac_iff ha.1 hb.1
  have h2 := eqFrac_iff ha.1 hb.1
  have h3 := ltFrac_iff hb.1 ha.1
  rcases Int.lt_trichotomy (a.num * b.den) (b.num * a.den) with h | h | h
  · exact Or.inl ⟨h1.mpr h, by simp [h2]; omega, by simp [h3]; omega⟩
  · exact Or.inr (Or.inl ⟨by simp [h1]; omega, h2.mpr h, by simp [h3]; omega⟩)
  · exact Or.inr (Or.inr ⟨by simp [h1]; omega, by simp [h2]; omega, h3.mpr h⟩)

/-- C6 witness: trichotomy applied at the canonical fractions 1/2 and 2/3. -/
theorem C6_ordering_trichotomy_witness :
    (ltFrac ⟨1, 2⟩ ⟨2, 3⟩ = true ∧ eqFrac ⟨1, 2⟩ ⟨2, 3⟩ ≠ true ∧ ltFrac ⟨2, 3⟩ ⟨1, 2⟩ ≠ true) ∨
      (ltFrac ⟨1, 2⟩ ⟨2, 3⟩ ≠ true ∧ eqFrac ⟨1, 2⟩ ⟨2, 3⟩ = true ∧ ltFrac ⟨2, 3⟩ ⟨1, 2⟩ ≠ true) ∨
      (ltFrac ⟨1, 2⟩ ⟨2, 3⟩ ≠ true ∧ eqFrac ⟨1, 2⟩ ⟨2, 3⟩ ≠ true ∧ ltFrac ⟨2, 3⟩ ⟨1, 2⟩ = true) :=
  C6_ordering_trichotomy ⟨1, 2⟩ ⟨2, 3⟩ ⟨by norm_num, by decide⟩ ⟨by norm_num, by decide⟩

theorem normalize2_fst_self_pos {d : Int} (hd : 0 < d) : (normalize2 ⟨d, d⟩).1 = ⟨1, 1⟩ := by
  rw [normalize2_eq]
  have hg : Int.gcd d d = d.natAbs := Int.gcd_self d
  have h0 : Int.gcd d d ≠ 0 := by rw [hg]; exact Int.natAbs_ne_zero.mpr hd.ne'
  rw [if_neg h0]
  have hcast : ((Int.gcd d d : Nat) : Int) = d := by rw [hg]; exact Int.natAbs_of_nonneg hd.le
  rw [hcast, Int.ediv_self hd.ne']

theorem normalize2_fst_negself_pos {d : Int} (hd : 0 < d) :
    (normalize2 ⟨-d, d⟩).1 = ⟨-1, 1⟩ := by
  rw [normalize2_eq]
  have hg : Int.gcd (-d) d = d.natAbs := by rw [Int.neg_gcd, Int.gcd_self]
  have h0 : Int.gcd (-d) d ≠ 0 := by rw [hg]; exact Int.natAbs_ne_zero.mpr hd.ne'
  rw [if_neg h0]
  have hcast : ((Int.gcd (-d) d : Nat) : Int) = d := by rw [hg]; exact Int.natAbs_of_nonneg hd.le
  have hnum : (-d) / d = -1 := by
    have h := Int.mul_ediv_cancel_left (a := d) (-1) hd.ne'
    rwa [show d * (-1) = -d by ring] at h
  rw [hcast, Int.ediv_self hd.ne', hnum]

theorem normalize2_fst_self_negnum {n : Int} (hn : n < 0) :
    (normalize2 ⟨n, -n⟩).1 = ⟨-1, 1⟩ := by
  rw [normalize2_eq]
  have hg : Int.gcd n (-n) = n.natAbs := by rw [Int.gcd_neg, Int.gcd_self]
  have h0 : Int.gcd n (-n) ≠ 0 := by rw [hg]; exact Int.natAbs_ne_zero.mpr hn.ne
  rw [if_neg h0]
  have hne : -n ≠ 0 := by omega
  have hcast : ((Int.gcd n (-n) : Nat) : Int) = -n := by
    rw [hg]
    omega
  have hnum : n / (-n) = -1 := by
    have h := Int.mul_ediv_cancel_left (a := -n) (-1) hne
    rwa [show -n * (-1) = n by ring] at h
  rw [hcast, Int.ediv_self hne, hnum]

/-- C7: for a canonical fraction with nonzero numerator and positive
denominator, multiplying by the value of `reciprocal` applied to a copy
yields exactly the fraction 1/1. -/
theorem C7_mul_reciprocal (f : Fraction) (h0 : f.num ≠ 0) (h1 : 0 < f.den)
    (h2 : Int.gcd f.num f.den = 1) :
    mul f (reciprocal f) = ⟨1, 1⟩ := by
  obtain ⟨n, d⟩ := f
  simp only at h0 h1 h2
  unfold mul mulAssign reciprocal
  rcases lt_trichotomy n 0 with hn | hn | hn
  · have hrec : normalize1 ⟨(Fraction.mk n d).den, (Fraction.mk n d).num⟩ = ⟨-d, -n⟩ := by
      unfold normalize1
      rw [if_pos hn]
    rw [hrec]
    show Fraction.mk ((normalize2 ⟨-d, d⟩).1.num * (normalize2 ⟨n, -n⟩).1.num)
      ((normalize2 ⟨-d, d⟩).1.den * (normalize2 ⟨n, -n⟩).1.den) = ⟨1, 1⟩
    rw [normalize2_fst_negself_pos h1, normalize2_fst_self_negnum hn]
    norm_num
  · exact absurd hn h0
  · have hrec : normalize1 ⟨(Fraction.mk n d).den, (Fraction.mk n d).num⟩ = ⟨d, n⟩ := by
      unfold normalize1
      rw [if_neg (show ¬(n < 0) by omega)]
    rw [hrec]
    show Fraction.mk ((normalize2 ⟨d, d⟩).1.num * (normalize2 ⟨n, n⟩).1.num)
      ((normalize2 ⟨d, d⟩).1.den * (normalize2 ⟨n, n⟩).1.den) = ⟨1, 1⟩
    rw [normalize2_fst_self_pos h1, normalize2_fst_self_pos hn]
    norm_num

/-- C7 witness: the reciprocal identity at the canonical fraction 3/4. -/
theorem C7_mul_reciprocal_witness : mul ⟨3, 4⟩ (reciprocal ⟨3, 4⟩) = ⟨1, 1⟩ :=
  C7_mul_reciprocal ⟨3, 4⟩ (by decide) (by norm_num) (by decide)

/-- C1: the claim that `operator==(const Fraction &, const Z &)` decides
rational equality fails on the code: for the canonical fraction 1/2 and the
integer 5 the operator returns `true` (its slow path returns the comparison
`lhs2.num < lhs2.den * rhs2` of `operator<` instead of an equality), although
the cross-multiplication equality `1 * 1 = 2 * 5` demanded by the claim and
the spec is false. The fast path — e.g. `Fraction(4, 2) == 2` — does decide
equality. -/
theorem C1_eqInt_slow_path_diverges :
    eqInt ⟨1, 2⟩ 5 = true ∧ (1 : Int) * 1 ≠ (2 : Int) * 5 ∧
      eqInt (mkFraction 4 2) 2 = true := by
  refine ⟨?_, by decide, ?_⟩
  · simp only [eqInt, normalize2_eq]
    decide
  · have h42 : mkFraction 4 2 = ⟨2, 1⟩ := by rw [mkFraction_eq]; decide
    rw [h42]
    simp only [eqInt, normalize2_eq]
    decide

/-- C5: dividing any fraction `a/b` by `Fraction(0, n)` executes no division
by zero (the checked transcription of `operator/=` succeeds) and returns a
fraction whose denominator is the sentinel 0. -/
theorem C5_div_by_zero_fraction (a b n : Int) :
    ∃ r : Fraction, divAssignChecked ⟨a, b⟩ (mkFraction 0 n) = some r ∧ r.den = 0 := by
  refine ⟨divAssign ⟨a, b⟩ (mkFraction 0 n), divAssignChecked_eq _ _, ?_⟩
  simp only [divAssign, mkFraction_zero_num, normalize_den_zero, zero_mul]

theorem isCanonical_canonInv {f : Fraction} (h : IsCanonical f) : CanonInv f :=
  ⟨h.1.le, Or.inr h.2⟩

theorem add_canonInv (a b : Fraction) : CanonInv (add a b) := by
  unfold add
  split
  · exact mkFraction_canonInv _ _
  · dsimp only
    split
    · exact mkFraction_canonInv _ _
    · exact mkFraction_canonInv _ _

theorem abs_of_nonneg {a : Int} (h : 0 ≤ a) : abs a = a := by
  rw [abs_eq_natAbs, Int.natAbs_of_nonneg h]

/-- C4: when the two denominators differ and their gcd is nonzero, `operator+`
takes the general path: with `l = b/g` and `r = d/g` it returns the
constructor applied to numerator `r*a + l*c` and denominator `b*r`, the
denominator `b*r` equals `lcm(b, d)`, and the returned fraction is that value
in canonical form; concretely `Fraction(1,2) + Fraction(1,3) == Fraction(5,6)`. -/
theorem C4_add_general_path :
    (∀ a b c d : Int, 0 ≤ b → 0 ≤ d → b ≠ d → gcd b d ≠ 0 →
        add ⟨a, b⟩ ⟨c, d⟩ =
            mkFraction (d.tdiv (gcd b d) * a + b.tdiv (gcd b d) * c) (b * d.tdiv (gcd b d)) ∧
          b * d.tdiv (gcd b d) = lcm b d ∧
          CanonInv (add ⟨a, b⟩ ⟨c, d⟩)) ∧
      eqFrac (add (mkFraction 1 2) (mkFraction 1 3)) (mkFraction 5 6) = true := by
  constructor
  · intro a b c d hb hd hbd hg
    refine ⟨?_, ?_, add_canonInv _ _⟩
    · show (if (b : Int) = d then _ else _) = _
      rw [if_neg hbd]
      dsimp only
      rw [if_neg hg]
    · rw [gcd_eq_gcd] at hg ⊢
      have hgnat : Int.gcd b d ≠ 0 := by
        intro hh
        exact hg (by rw [hh]; rfl)
      have hgZ : ((Int.gcd b d : Nat) : Int) ≠ 0 := (gcd_cast_pos hgnat).ne'
      have htd : d.tdiv ((Int.gcd b d : Nat) : Int) = d / ((Int.gcd b d : Nat) : Int) :=
        Int.tdiv_eq_ediv_of_dvd Int.gcd_dvd_right
      by_cases hb0 : b = 0
      · subst hb0
        simp [lcm]
      · by_cases hd0 : d = 0
        · subst hd0
          simp [lcm, hb0]
        · unfold lcm
          rw [if_neg (by push_neg; exact ⟨hb0, hd0⟩), gcd_eq_gcd,
            abs_of_nonneg hb, abs_of_nonneg hd]
          have htb : b.tdiv ((Int.gcd b d : Nat) : Int) = b / ((Int.gcd b d : Nat) : Int) :=
            Int.tdiv_eq_ediv_of_dvd Int.gcd_dvd_left
          rw [htd, htb]
          have e1 : ((Int.gcd b d : Nat) : Int) * (b * (d / ((Int.gcd b d : Nat) : Int))) =
              b * d := by
            rw [mul_left_comm, Int.mul_ediv_cancel' Int.gcd_dvd_right]
          have e2 : ((Int.gcd b d : Nat) : Int) * (b / ((Int.gcd b d : Nat) : Int) * d) =
              b * d := by
            rw [← mul_assoc, Int.mul_ediv_cancel' Int.gcd_dvd_left]
          exact mul_left_cancel₀ hgZ (e1.trans e2.symm)
  · have h12 : mkFraction 1 2 = ⟨1, 2⟩ := by rw [mkFraction_eq]; decide
    have h13 : mkFraction 1 3 = ⟨1, 3⟩ := by rw [mkFraction_eq]; decide
    have h56 : mkFraction 5 6 = ⟨5, 6⟩ := by rw [mkFraction_eq]; decide
    rw [h12, h13, h56]
    have hadd : add ⟨1, 2⟩ ⟨1, 3⟩ = ⟨5, 6⟩ := by
      simp only [add, gcd_eq_gcd, mkFraction_eq]
      decide
    rw [hadd]
    decide

/-- C4 witness: the general path at 1/2 + 1/3. -/
theorem C4_add_general_path_witness :
    add ⟨1, 2⟩ ⟨1, 3⟩ =
        mkFraction ((3 : Int).tdiv (gcd 2 3) * 1 + (2 : Int).tdiv (gcd 2 3) * 1)
          (2 * (3 : Int).tdiv (gcd 2 3)) ∧
      (2 : Int) * (3 : Int).tdiv (gcd 2 3) = lcm 2 3 ∧
      CanonInv (add ⟨1, 2⟩ ⟨1, 3⟩) :=
  C4_add_general_path.1 1 2 1 3 (by norm_num) (by norm_num) (by norm_num)
    (by rw [gcd_eq_gcd]; decide)

theorem int_gcd_natAbs (x y : Int) : Int.gcd x y = Nat.gcd x.natAbs y.natAbs := rfl

theorem natAbs_ediv_gcd_left (x y : Int) :
    (x / (Int.gcd x y : Int)).natAbs = x.natAbs / Int.gcd x y := by
  rw [natAbs_ediv_of_dvd _ _ Int.gcd_dvd_left, Int.natAbs_ofNat]

theorem natAbs_ediv_gcd_right (x y : Int) :
    (y / (Int.gcd x y : Int)).natAbs = y.natAbs / Int.gcd x y := by
  rw [natAbs_ediv_of_dvd _ _ Int.gcd_dvd_right, Int.natAbs_ofNat]

theorem mulAssign_isCanonical {a b : Fraction} (ha : IsCanonical a) (hb : IsCanonical b) :
    IsCanonical (mulAssign a b) := by
  obtain ⟨n1, d1⟩ := a
  obtain ⟨n2, d2⟩ := b
  obtain ⟨hd1, hcop1⟩ := ha
  obtain ⟨hd2, hcop2⟩ := hb
  simp only at hd1 hcop1 hd2 hcop2
  unfold mulAssign
  rw [normalize2_eq, normalize2_eq]
  dsimp only
  have hg1 : Int.gcd n2 d1 ≠ 0 := gcd_ne_zero_of_right hd1.ne'
  have hg2 : Int.gcd n1 d2 ≠ 0 := gcd_ne_zero_of_right hd2.ne'
  rw [if_neg hg1, if_neg hg2]
  constructor
  · exact mul_pos (ediv_gcd_pos_right n2 d1 hd1) (ediv_gcd_pos_right n1 d2 hd2)
  · show Int.gcd (_ * _) (_ * _) = 1
    rw [int_gcd_natAbs, Int.natAbs_mul, Int.natAbs_mul,
      natAbs_ediv_gcd_left n2 d1, natAbs_ediv_gcd_right n2 d1,
      natAbs_ediv_gcd_left n1 d2, natAbs_ediv_gcd_right n1 d2]
    have hpos1 : 0 < Int.gcd n2 d1 := Nat.pos_of_ne_zero hg1
    have hpos2 : 0 < Int.gcd n1 d2 := Nat.pos_of_ne_zero hg2
    have c11 : Nat.Coprime (n2.natAbs / Int.gcd n2 d1) (d1.natAbs / Int.gcd n2 d1) :=
      Nat.coprime_div_gcd_div_gcd hpos1
    have c22 : Nat.Coprime (n1.natAbs / Int.gcd n1 d2) (d2.natAbs / Int.gcd n1 d2) :=
      Nat.coprime_div_gcd_div_gcd hpos2
    have dvd_n2 : n2.natAbs / Int.gcd n2 d1 ∣ n2.natAbs :=
      Nat.div_dvd_of_dvd (Nat.gcd_dvd_left _ _)
    have dvd_d1 : d1.natAbs / Int.gcd n2 d1 ∣ d1.natAbs :=
      Nat.div_dvd_of_dvd (Nat.gcd_dvd_right _ _)
    have dvd_n1 : n1.natAbs / Int.gcd n1 d2 ∣ n1.natAbs :=
      Nat.div_dvd_of_dvd (Nat.gcd_dvd_left _ _)
    have dvd_d2 : d2.natAbs / Int.gcd n1 d2 ∣ d2.natAbs :=
      Nat.div_dvd_of_dvd (Nat.gcd_dvd_right _ _)
    have c21 : Nat.Coprime (n2.natAbs / Int.gcd n2 d1) (d2.natAbs / Int.gcd n1 d2) :=
      Nat.Coprime.coprime_dvd_right dvd_d2 (Nat.Coprime.coprime_dvd_left dvd_n2 hcop2)
    have c12 : Nat.Coprime (n1.natAbs / Int.gcd n1 d2) (d1.natAbs / Int.gcd n2 d1) :=
      Nat.Coprime.coprime_dvd_right dvd_d1 (Nat.Coprime.coprime_dvd_left dvd_n1 hcop1)
    exact Nat.Coprime.mul (c11.mul_right c21) (c12.mul_right c22)

theorem divAssign_canonInv {a b : Fraction} (ha : IsCanonical a) (hb : IsCanonical b) :
    CanonInv (divAssign a b) := by
  obtain ⟨n1, d1⟩ := a
  obtain ⟨n2, d2⟩ := b
  obtain ⟨hd1, hcop1⟩ := ha
  obtain ⟨hd2, hcop2⟩ := hb
  simp only at hd1 hcop1 hd2 hcop2
  unfold divAssign
  rw [show normalize ⟨(Fraction.mk n1 d1).num, (Fraction.mk n2 d2).num⟩ =
    mkFraction n1 n2 from rfl]
  rw [normalize2_eq]
  dsimp only
  have hgd : Int.gcd d1 d2 ≠ 0 := gcd_ne_zero_of_right hd2.ne'
  rw [if_neg hgd]
  by_cases hn2 : n2 = 0
  · subst hn2
    have hd2one : d2 = 1 := by
      rw [int_gcd_natAbs, Int.natAbs_zero, Nat.gcd_zero_left] at hcop2
      omega
    subst hd2one
    by_cases hn1 : n1 = 0
    · subst hn1
      have hmk : mkFraction 0 0 = ⟨0, 0⟩ := by rw [mkFraction_eq]; decide
      rw [hmk]
      exact ⟨by simp, Or.inl (by simp [int_gcd_natAbs])⟩
    · have hG : Int.gcd n1 (0 : Int) ≠ 0 := gcd_ne_zero_of_left hn1
      have hnum : (mkFraction n1 0).num.natAbs = 1 := by
        rw [mkFraction_num_natAbs n1 0 hG, int_gcd_natAbs, Int.natAbs_zero, Nat.gcd_zero_right,
          Nat.div_self (Nat.pos_of_ne_zero (Int.natAbs_ne_zero.mpr hn1))]
      have hden : (mkFraction n1 0).den = 0 := normalize_den_zero n1
      constructor
      · show (0 : Int) ≤ (mkFraction n1 0).den * _
        rw [hden, zero_mul]
      · right
        show Int.gcd ((mkFraction n1 0).num * _) ((mkFraction n1 0).den * _) = 1
        rw [hden, zero_mul, int_gcd_natAbs, Int.natAbs_zero, Nat.gcd_zero_right,
          Int.natAbs_mul, hnum, one_mul, Int.gcd_one]
        simp
  · have hG : Int.gcd n1 n2 ≠ 0 := gcd_ne_zero_of_right hn2
    have hmkden : 0 < (mkFraction n1 n2).den := mkFraction_den_pos n1 hn2
    constructor
    · exact mul_nonneg hmkden.le (ediv_gcd_pos_left d1 d2 hd1).le
    · right
      rw [int_gcd_natAbs, Int.natAbs_mul, Int.natAbs_mul,
        mkFraction_num_natAbs n1 n2 hG, mkFraction_den_natAbs n1 n2 hG,
        natAbs_ediv_gcd_left d1 d2, natAbs_ediv_gcd_right d1 d2]
      show Nat.Coprime _ _
      have hposG : 0 < Int.gcd n1 n2 := Nat.pos_of_ne_zero hG
      have hposgd : 0 < Int.gcd d1 d2 := Nat.pos_of_ne_zero hgd
      have cmk : Nat.Coprime (n1.natAbs / Int.gcd n1 n2) (n2.natAbs / Int.gcd n1 n2) :=
        Nat.coprime_div_gcd_div_gcd hposG
      have cdd : Nat.Coprime (d1.natAbs / Int.gcd d1 d2) (d2.natAbs / Int.gcd d1 d2) :=
        Nat.coprime_div_gcd_div_gcd hposgd
      have dv_n1 : n1.natAbs / Int.gcd n1 n2 ∣ n1.natAbs :=
        Nat.div_dvd_of_dvd (Nat.gcd_dvd_left _ _)
      have dv_n2 : n2.natAbs / Int.gcd n1 n2 ∣ n2.natAbs :=
        Nat.div_dvd_of_dvd (Nat.gcd_dvd_right _ _)
      have dv_d1 : d1.natAbs / Int.gcd d1 d2 ∣ d1.natAbs :=
        Nat.div_dvd_of_dvd (Nat.gcd_dvd_left _ _)
      have dv_d2 : d2.natAbs / Int.gcd d1 d2 ∣ d2.natAbs :=
        Nat.div_dvd_of_dvd (Nat.gcd_dvd_right _ _)
      have c_num_d1 : Nat.Coprime (n1.natAbs / Int.gcd n1 n2) (d1.natAbs / Int.gcd d1 d2) :=
        Nat.Coprime.coprime_dvd_right dv_d1 (Nat.Coprime.coprime_dvd_left dv_n1 hcop1)
      have c_d2_den : Nat.Coprime (d2.natAbs / Int.gcd d1 d2) (n2.natAbs / Int.gcd n1 n2) :=
        Nat.Coprime.coprime_dvd_right dv_n2
          (Nat.Coprime.coprime_dvd_left dv_d2 (Nat.Coprime.symm hcop2))
      exact Nat.Coprime.mul (cmk.mul_right c_num_d1) (c_d2_den.mul_right cdd.symm)

/-- C2: the canonical-form invariant — nonnegative denominator and
numerator/denominator gcd 0 or 1 — holds for every fraction constructed from
a nonzero denominator and for the result of each of the four arithmetic
operators applied to canonical fractions; and `Fraction(1, -2)` normalizes
to numerator -1, denominator 2. -/
theorem C2_canonical_form :
    (∀ n d : Int, d ≠ 0 → CanonInv (mkFraction n d)) ∧
      (∀ a b : Fraction, IsCanonical a → IsCanonical b →
          CanonInv (add a b) ∧ CanonInv (sub a b) ∧ CanonInv (mul a b) ∧ CanonInv (div a b)) ∧
      mkFraction 1 (-2) = ⟨-1, 2⟩ := by
  refine ⟨fun n d _ => mkFraction_canonInv n d,
    fun a b ha hb => ⟨add_canonInv a b, add_canonInv a (neg b),
      isCanonical_canonInv (mulAssign_isCanonical ha hb), divAssign_canonInv ha hb⟩, ?_⟩
  rw [mkFraction_eq]
  decide

/-- C2 witness: the constructor invariant at `Fraction(7, -3)` and the
multiplication invariant at 2/3 times 3/4. -/
theorem C2_canonical_form_witness :
    CanonInv (mkFraction 7 (-3)) ∧ CanonInv (mul ⟨2, 3⟩ ⟨3, 4⟩) :=
  ⟨C2_canonical_form.1 7 (-3) (by norm_num),
    (C2_canonical_form.2.1 ⟨2, 3⟩ ⟨3, 4⟩ ⟨by norm_num, by decide⟩
      ⟨by norm_num, by decide⟩).2.2.1⟩

theorem subAssign_general (sn sd rn rd : Int) (h : sd ≠ rd) :
    subAssign ⟨sn, sd⟩ ⟨rn, rd⟩ =
      (normalize2 ⟨(normalize2 ⟨(normalize2 ⟨sn, rn⟩).1.num * (normalize2 ⟨sd, rd⟩).1.den -
            (normalize2 ⟨sd, rd⟩).1.num * (normalize2 ⟨sn, rn⟩).1.den,
          (normalize2 ⟨sd, rd⟩).2⟩).1.num * (normalize2 ⟨sn, rn⟩).2,
        (normalize2 ⟨(normalize2 ⟨sn, rn⟩).1.num * (normalize2 ⟨sd, rd⟩).1.den -
            (normalize2 ⟨sd, rd⟩).1.num * (normalize2 ⟨sn, rn⟩).1.den,
          (normalize2 ⟨sd, rd⟩).2⟩).1.den *
          ((normalize2 ⟨sd, rd⟩).1.num * (normalize2 ⟨sd, rd⟩).1.den)⟩).1 := by
  unfold subAssign cross
  rw [if_neg h]

theorem add_general (an ad bn bd : Int) (hden : ad ≠ bd) (hg : gcd ad bd ≠ 0) :
    add ⟨an, ad⟩ ⟨bn, bd⟩ =
      mkFraction (bd.tdiv (gcd ad bd) * an + ad.tdiv (gcd ad bd) * bn)
        (ad * bd.tdiv (gcd ad bd)) := by
  unfold add
  rw [if_neg hden]
  dsimp only
  rw [if_neg hg]

theorem mkFraction_of_nonneg (n d : Int) (hd : 0 ≤ d) :
    mkFraction n d = (normalize2 ⟨n, d⟩).1 := by
  unfold mkFraction normalize
  rw [normalize1_of_nonneg hd]

/-- C3: for fractions with nonnegative denominators, the independent
implementation of `operator+` produces field-for-field the same fraction as
the in-place chain `operator+=` (which delegates to `operator-=` on the
negated right operand). -/
theorem C3_add_eq_addAssign (a b : Fraction) (ha : 0 ≤ a.den) (hb : 0 ≤ b.den) :
    add a b = addAssign a b := by
  obtain ⟨an, ad⟩ := a
  obtain ⟨bn, bd⟩ := b
  simp only at ha hb
  unfold addAssign neg
  dsimp only
  by_cases hden : ad = bd
  · unfold add subAssign
    rw [if_pos hden, if_pos hden, sub_neg_eq_add, mkFraction_of_nonneg _ _ ha]
  · -- general path
    have hG0 : Int.gcd ad bd ≠ 0 := by
      intro hh
      obtain ⟨h1, h2⟩ := Int.gcd_eq_zero_iff.mp hh
      exact hden (h1.trans h2.symm)
    set G : Nat := Int.gcd ad bd with hGdef
    have hGZ : (0 : Int) < (G : Int) := gcd_cast_pos hG0
    have hdvdl : ((G : Nat) : Int) ∣ ad := by rw [hGdef]; exact Int.gcd_dvd_left
    have hdvdr : ((G : Nat) : Int) ∣ bd := by rw [hGdef]; exact Int.gcd_dvd_right
    have hgg : gcd ad bd ≠ 0 := by
      rw [gcd_eq_gcd, ← hGdef]
      exact_mod_cast hGZ.ne'
    have htq : bd.tdiv (gcd ad bd) = bd / (G : Int) := by
      rw [gcd_eq_gcd, ← hGdef]
      exact Int.tdiv_eq_ediv_of_dvd hdvdr
    have htp : ad.tdiv (gcd ad bd) = ad / (G : Int) := by
      rw [gcd_eq_gcd, ← hGdef]
      exact Int.tdiv_eq_ediv_of_dvd hdvdl
    have hp2 : normalize2 ⟨ad, bd⟩ = (⟨ad / (G : Int), bd / (G : Int)⟩, (G : Int)) := by
      rw [normalize2_eq]
      dsimp only
      rw [← hGdef, if_neg hG0]
    rw [add_general an ad bn bd hden hgg, subAssign_general an ad (-bn) bd hden, htq, htp, hp2]
    dsimp only
    set P : Int := ad / (G : Int) with hPdef
    set Q : Int := bd / (G : Int) with hQdef
    have hadP : (G : Int) * P = ad := by rw [hPdef]; exact Int.mul_ediv_cancel' hdvdl
    have hbdQ : (G : Int) * Q = bd := by rw [hQdef]; exact Int.mul_ediv_cancel' hdvdr
    have hPnn : 0 ≤ P := by rw [hPdef]; exact Int.ediv_nonneg ha (Int.natCast_nonneg _)
    have hQnn : 0 ≤ Q := by rw [hQdef]; exact Int.ediv_nonneg hb (Int.natCast_nonneg _)
    by_cases hgn : Int.gcd an bn = 0
    · obtain ⟨han, hbn⟩ := Int.gcd_eq_zero_iff.mp hgn
      subst han
      subst hbn
      have hp1 : normalize2 ⟨(0 : Int), -(0 : Int)⟩ = (⟨0, 0⟩, 0) := by
        rw [normalize2_eq]
        decide
      rw [hp1]
      dsimp only
      rw [show (0 : Int) * Q - P * 0 = 0 by ring]
      have hp3 : normalize2 ⟨(0 : Int), (G : Int)⟩ = (⟨0, 1⟩, (G : Int)) := by
        rw [normalize2_eq]
        dsimp only
        rw [show Int.gcd 0 ((G : Nat) : Int) = G from by rw [Int.gcd_zero_left, Int.natAbs_ofNat],
          if_neg hG0, Int.zero_ediv, Int.ediv_self hGZ.ne']
      rw [hp3]
      dsimp only
      rw [show Q * (0 : Int) + P * 0 = 0 by ring, show (0 : Int) * 0 = 0 by ring, one_mul,
        mkFraction_of_nonneg _ _ (mul_nonneg ha hQnn)]
      have hpair : (⟨(0 : Int), ad * Q⟩ : Fraction) = ⟨(G : Int) * 0, (G : Int) * (P * Q)⟩ := by
        rw [mul_zero, ← hadP, mul_assoc]
      rw [hpair, normalize2_fst_mul _ _ _ hGZ]
    · have hg1Z : (0 : Int) < ((Int.gcd an bn : Nat) : Int) := gcd_cast_pos hgn
      set g1 : Nat := Int.gcd an bn with hg1def
      obtain ⟨A, hA⟩ : ((g1 : Nat) : Int) ∣ an := by rw [hg1def]; exact Int.gcd_dvd_left
      obtain ⟨B, hB⟩ : ((g1 : Nat) : Int) ∣ bn := by rw [hg1def]; exact Int.gcd_dvd_right
      have hp1 : normalize2 ⟨an, -bn⟩ = (⟨A, -B⟩, (g1 : Int)) := by
        rw [normalize2_eq]
        dsimp only
        rw [show Int.gcd an (-bn) = g1 from by rw [Int.gcd_neg, hg1def], if_neg hgn, hA, hB,
          Int.mul_ediv_cancel_left _ hg1Z.ne',
          show -(((g1 : Nat) : Int) * B) = ((g1 : Nat) : Int) * (-B) by ring,
          Int.mul_ediv_cancel_left _ hg1Z.ne']
      rw [hp1]
      dsimp only
      rw [show A * Q - P * (-B) = A * Q + P * B by ring]
      set crossv : Int := A * Q + P * B with hcrossdef
      have hg2ne : Int.gcd crossv (G : Int) ≠ 0 := by
        intro hh
        exact hGZ.ne' (Int.gcd_eq_zero_iff.mp hh).2
      set g2 : Nat := Int.gcd crossv (G : Int) with hg2def
      have hg2Z : (0 : Int) < (g2 : Int) := gcd_cast_pos hg2ne
      have hdc : ((g2 : Nat) : Int) ∣ crossv := by rw [hg2def]; exact Int.gcd_dvd_left
      have hdG : ((g2 : Nat) : Int) ∣ (G : Int) := by rw [hg2def]; exact Int.gcd_dvd_right
      have hp3 : normalize2 ⟨crossv, (G : Int)⟩ =
          (⟨crossv / (g2 : Int), (G : Int) / (g2 : Int)⟩, (g2 : Int)) := by
        rw [normalize2_eq]
        dsimp only
        rw [← hg2def, if_neg hg2ne]
      rw [hp3]
      dsimp only
      have hnum : Q * an + P * bn = (g1 : Int) * crossv := by
        rw [hA, hB, hcrossdef]
        ring
      have hden2 : ad * Q = (G : Int) * (P * Q) := by
        rw [← hadP]
        ring
      rw [hnum, hden2, mkFraction_of_nonneg _ _
        (mul_nonneg (Int.natCast_nonneg _) (mul_nonneg hPnn hQnn))]
      have hx : (g2 : Int) * (crossv / (g2 : Int) * (g1 : Int)) = (g1 : Int) * crossv := by
        rw [← mul_assoc, Int.mul_ediv_cancel' hdc]
        ring
      have hy : (g2 : Int) * ((G : Int) / (g2 : Int) * (P * Q)) = (G : Int) * (P * Q) := by
        rw [← mul_assoc, Int.mul_ediv_cancel' hdG]
      calc (normalize2 ⟨(g1 : Int) * crossv, (G : Int) * (P * Q)⟩).1
          = (normalize2 ⟨(g2 : Int) * (crossv / (g2 : Int) * (g1 : Int)),
              (g2 : Int) * ((G : Int) / (g2 : Int) * (P * Q))⟩).1 := by rw [hx, hy]
        _ = (normalize2 ⟨crossv / (g2 : Int) * (g1 : Int),
              (G : Int) / (g2 : Int) * (P * Q)⟩).1 := normalize2_fst_mul _ _ _ hg2Z

/-- C3 witness: `1/2 + 1/3` agrees with the `+=` delegation at the same
operands. -/
theorem C3_add_eq_addAssign_witness : add ⟨1, 2⟩ ⟨1, 3⟩ = addAssign ⟨1, 2⟩ ⟨1, 3⟩ :=
  C3_add_eq_addAssign ⟨1, 2⟩ ⟨1, 3⟩ (by norm_num) (by norm_num)

end Frac